import Mathlib

set_option maxRecDepth 100000

/-!
Verification of the Shut-the-Box engine (`game.py`), the strategy policies
(`shutbox/policies.py`, `simulate_all_strategies.py`, `scripts/collect_runs.py`)
and the aggregator (`analyze_results.py`), via a shallow embedding.

Conventions of the embedding:
* Python `dict` tiles (keys exactly `1..tiles_max`, insertion-ordered) is a
  function `Nat → Bool` read only on `1..tiles_max`; iteration over
  `tiles.items()` is iteration over `List.range' 1 tiles_max`.
* Python ints are `Int` (roll values, targets) or `Nat` (tile identifiers,
  which are always in `1..tiles_max`).
* The injected randomness (`rng.randint`) is an explicit `RollInput`; a
  uniform `random.choice` is an explicit index into the candidate list.
* Python `sorted` is `List.insertionSort (· ≤ ·)` (sorted and a permutation,
  which determines the output uniquely for a total antisymmetric order);
  Python `min(xs, key=k)` (first minimum wins) is `minByFirst`.
-/

/-- Python tuple comparison `a <= b` on tuples of naturals: lexicographic,
a strict prefix is smaller. -/
def tupleLeB : List Nat → List Nat → Bool
  | [], _ => true
  | _ :: _, [] => false
  | a :: as, b :: bs => if a < b then true else if b < a then false else tupleLeB as bs

/-- Propositional form of `tupleLeB`, the order used to sort combo lists. -/
def tupleLe (a b : List Nat) : Prop := tupleLeB a b = true

instance : DecidableRel tupleLe := fun a b => by unfold tupleLe; infer_instance

theorem tupleLeB_total : ∀ a b : List Nat, tupleLeB a b = true ∨ tupleLeB b a = true := by
  intro a
  induction a with
  | nil => intro b; left; rfl
  | cons x as ih =>
    intro b
    cases b with
    | nil => right; rfl
    | cons y bs =>
      by_cases hxy : x < y
      · left; simp [tupleLeB, hxy]
      · by_cases hyx : y < x
        · right; simp [tupleLeB, hyx, hxy]
        · have := ih bs
          simpa [tupleLeB, hxy, hyx] using this

instance : IsTotal (List Nat) tupleLe := ⟨fun a b => tupleLeB_total a b⟩

theorem tupleLeB_trans : ∀ a b c : List Nat,
    tupleLeB a b = true → tupleLeB b c = true → tupleLeB a c = true := by
  intro a
  induction a with
  | nil => intro b c _ _; rfl
  | cons x as ih =>
    intro b c hab hbc
    cases b with
    | nil => simp [tupleLeB] at hab
    | cons y bs =>
      cases c with
      | nil => simp [tupleLeB] at hbc
      | cons z cs =>
        by_cases hxy : x < y
        · by_cases hyz : y < z
          · simp [tupleLeB, lt_trans hxy hyz]
          · by_cases hzy : z < y
            · simp [tupleLeB, hyz, hzy] at hbc
            · have hyz' : y = z := le_antisymm (not_lt.mp hzy) (not_lt.mp hyz)
              subst hyz'
              simp [tupleLeB, hxy]
        · by_cases hyx : y < x
          · simp [tupleLeB, hxy, hyx] at hab
          · have hxy' : x = y := le_antisymm (not_lt.mp hyx) (not_lt.mp hxy)
            subst hxy'
            by_cases hyz : x < z
            · simp [tupleLeB, hyz]
            · by_cases hzy : z < x
              · simp [tupleLeB, hyz, hzy] at hbc
              · have : x = z := le_antisymm (not_lt.mp hzy) (not_lt.mp hyz)
                subst this
                simp [tupleLeB, lt_irrefl] at hab hbc ⊢
                exact ih bs cs hab hbc

instance : IsTrans (List Nat) tupleLe := ⟨fun a b c => tupleLeB_trans a b c⟩

theorem tupleLeB_antisymm : ∀ a b : List Nat,
    tupleLeB a b = true → tupleLeB b a = true → a = b := by
  intro a
  induction a with
  | nil =>
    intro b _ hba
    cases b with
    | nil => rfl
    | cons y bs => simp [tupleLeB] at hba
  | cons x as ih =>
    intro b hab hba
    cases b with
    | nil => simp [tupleLeB] at hab
    | cons y bs =>
      by_cases hxy : x < y
      · simp [tupleLeB, hxy, asymm hxy] at hba
      · by_cases hyx : y < x
        · simp [tupleLeB, hxy, hyx] at hab
        · have hxy' : x = y := le_antisymm (not_lt.mp hyx) (not_lt.mp hxy)
          subst hxy'
          simp [tupleLeB, lt_irrefl] at hab hba
          rw [ih bs hab hba]

instance : IsAntisymm (List Nat) tupleLe := ⟨fun a b => tupleLeB_antisymm a b⟩

/-- `combos_that_sum` (game.py): sort the inputs, enumerate the combinations of
every size `1 ≤ k ≤ len` (exactly the non-empty sublists of the sorted list),
keep those summing to `target`, then deduplicate and sort the result
lexicographically (`sorted(set(out))`). -/
def combos_that_sum (nums : List Nat) (target : Int) : List (List Nat) :=
  let s := nums.insertionSort (· ≤ ·)
  let out := s.sublists.filter (fun c => !c.isEmpty && decide ((c.sum : Int) = target))
  (out.dedup).insertionSort tupleLe

/-- The `Game` dataclass state (game.py). `tiles` is the open/closed map, read
only on keys `1..tiles_max`; the `rng` field is replaced by explicit die
inputs to `roll`. -/
structure Game where
  tiles_max : Nat
  single_die_rule : Bool
  tiles : Nat → Bool
  over : Bool
  last_roll : Option Int

/-- `__post_init__`: a fresh game (all tiles `1..tiles_max` open).
(`tiles_max < 1` raises `ValueError` in the source; construction is modelled
only for the values the constructor accepts.) -/
def Game.init (tiles_max : Nat) (single_die_rule : Bool) : Game :=
  { tiles_max := tiles_max
    single_die_rule := single_die_rule
    tiles := fun i => decide (1 ≤ i ∧ i ≤ tiles_max)
    over := false
    last_roll := none }

/-- `Game.open_tiles`: the open keys in dict (= ascending) order. -/
def Game.open_tiles (g : Game) : List Nat :=
  (List.range' 1 g.tiles_max).filter g.tiles

/-- `Game.score`: sum of the open tiles. -/
def Game.score (g : Game) : Nat := g.open_tiles.sum

/-- `Game.can_use_single_die`: false if the rule is disabled; otherwise true
iff every tile of `(7, 8, 9)` present on the board (`i <= tiles_max`) is
closed.  (`tiles.get(i, False)` reads keys `7..9 ≤ tiles_max`, all in the
dict's key range, so it is the plain map lookup.) -/
def Game.can_use_single_die (g : Game) : Bool :=
  if !g.single_die_rule then false
  else (([7, 8, 9].filter (· ≤ g.tiles_max)).all fun i => !g.tiles i)

/-- `Game.available_moves`. -/
def Game.available_moves (g : Game) (target : Int) : List (List Nat) :=
  combos_that_sum g.open_tiles target

/-- The randomness consumed by one `roll()` call: either a `forced` value, or
the one/two `rng.randint(1, 6)` outcomes (`d1` alone is used when
`can_use_single_die()`, else `d1 + d2`). -/
inductive RollInput where
  | forced (v : Int)
  | dice (d1 d2 : Nat)

/-- `Game.roll`: if the game is over, return `last_roll` (or 0) unchanged;
otherwise record the roll in `last_roll` and set `over` when it has no
available move (`over` is false on entry, so the conditional `over = True`
is the emptiness test). Returns the roll and the updated state. -/
def Game.roll (g : Game) (inp : RollInput) : Int × Game :=
  if g.over then (g.last_roll.getD 0, g)
  else
    let r : Int :=
      match inp with
      | .forced v => v
      | .dice d1 d2 => if g.can_use_single_die then (d1 : Int) else (d1 : Int) + (d2 : Int)
    (r, { g with last_roll := some r, over := (g.available_moves r).isEmpty })

/-- `Game.move`: fail (state untouched) when over, no pending roll, or the
sorted chosen tuple is not an available move; otherwise close the chosen
tiles, clear `last_roll`, and set `over` when no tile remains open (`over`
is false on entry, so the conditional assignment is the emptiness test). -/
def Game.move (g : Game) (chosen : List Nat) : Bool × Game :=
  if g.over then (false, g)
  else
    match g.last_roll with
    | none => (false, g)
    | some r =>
      let ch := chosen.insertionSort (· ≤ ·)
      if ch ∈ g.available_moves r then
        let tiles2 : Nat → Bool := fun t => if t ∈ ch then false else g.tiles t
        (true, { g with tiles := tiles2
                        last_roll := none
                        over := ((List.range' 1 g.tiles_max).filter tiles2).isEmpty })
      else (false, g)

/-- Python `min(xs, key=key)`: the first element attaining the minimal key
(`none` on the empty list, where Python raises; all call sites guard). -/
def minByFirst (key : List Nat → Int) : List (List Nat) → Option (List Nat)
  | [] => none
  | m :: ms => some (ms.foldl (fun best mv => if key mv < key best then mv else best) m)

/-- `policy_random` (simulate_all_strategies.py): roll, then a uniform choice
among `available_moves` (`rng.choice`, modelled by the index `idx`), or
`None` when there is none.  Returns the choice and the engine state the
embedded `game.roll()` left behind. -/
def policy_random (g : Game) (inp : RollInput) (idx : Nat) : Option (List Nat) × Game :=
  let p := g.roll inp
  let moves := p.2.available_moves p.1
  (if moves.isEmpty then none else moves[idx % moves.length]?, p.2)

/-- `policy_greedy_min_remaining` (simulate_all_strategies.py): roll, then
`min(moves, key = open-sum - move-sum)` (first minimum wins), or `None`. -/
def policy_greedy_min_remaining (g : Game) (inp : RollInput) : Option (List Nat) × Game :=
  let p := g.roll inp
  let moves := p.2.available_moves p.1
  (minByFirst (fun mv => (p.2.open_tiles.sum : Int) - (mv.sum : Int)) moves, p.2)

/-- `policy_human_like` (simulate_all_strategies.py): roll; prefer the best
multi-tile move; with no multi-tile move fall back to
`policy_greedy_min_remaining(game)`, which performs a second roll
(consuming `inp2`). -/
def policy_human_like (g : Game) (inp inp2 : RollInput) : Option (List Nat) × Game :=
  let p := g.roll inp
  let moves := p.2.available_moves p.1
  if moves.isEmpty then (none, p.2)
  else
    let multi := moves.filter fun mv => decide (2 ≤ mv.length)
    if multi.isEmpty then policy_greedy_min_remaining p.2 inp2
    else (minByFirst (fun mv => (p.2.open_tiles.sum : Int) - (mv.sum : Int)) multi, p.2)

/-- The `j > i` inner loop of the pair enumeration shared by
`shutbox/policies.py:_compute_legal_moves` and
`scripts/collect_runs.py:compute_legal_moves`: for each `a` in order, each
later `b` with `a + b = roll` yields the pair `[a, b]`. -/
def pairsSummingTo : List Nat → Int → List (List Nat)
  | [], _ => []
  | a :: rest, r =>
      ((rest.filter fun (b : Nat) => decide ((a : Int) + (b : Int) = r)).map fun b => [a, b])
        ++ pairsSummingTo rest r

namespace Shutbox

/-- `_open_tiles_list` (shutbox/policies.py), dict branch: the open tiles. -/
def open_tiles_list (g : Game) : List Nat :=
  (List.range' 1 g.tiles_max).filter g.tiles

/-- `_compute_legal_moves` (shutbox/policies.py): the singles equal to the
roll, then every ordered pair of open tiles summing to the roll. -/
def compute_legal_moves (g : Game) (roll_val : Int) : List (List Nat) :=
  let opens := open_tiles_list g
  ((opens.filter fun (t : Nat) => decide ((t : Int) = roll_val)).map fun t => [t])
    ++ pairsSummingTo opens roll_val

/-- `_remaining_sum_after` (shutbox/policies.py): `Game` has no
`remaining_sum_after` attribute, so the fallback `sum(opens) - sum(mv)`
applies. -/
def remaining_sum_after (g : Game) (mv : List Nat) : Int :=
  ((open_tiles_list g).sum : Int) - (mv.sum : Int)

/-- `random_move` (shutbox/policies.py): `game.roll()` then a uniform choice
among the (at most two-tile) legal moves, `None` if there is none. -/
def random_move (g : Game) (inp : RollInput) (idx : Nat) : Option (List Nat) × Game :=
  let p := g.roll inp
  let legal := compute_legal_moves p.2 p.1
  (if legal.isEmpty then none else legal[idx % legal.length]?, p.2)

/-- `greedy_move` (shutbox/policies.py): `game.roll()` then
`min(legal, key=remaining_sum_after)`. -/
def greedy_move (g : Game) (inp : RollInput) : Option (List Nat) × Game :=
  let p := g.roll inp
  let legal := compute_legal_moves p.2 p.1
  (minByFirst (remaining_sum_after p.2) legal, p.2)

/-- `human_move` (shutbox/policies.py): `game.roll()`; prefer the best
multi-tile legal move; with none, fall back to `greedy_move(game)`, which
performs a second roll (consuming `inp2`). -/
def human_move (g : Game) (inp inp2 : RollInput) : Option (List Nat) × Game :=
  let p := g.roll inp
  let legal := compute_legal_moves p.2 p.1
  if legal.isEmpty then (none, p.2)
  else
    let multi := legal.filter fun mv => decide (2 ≤ mv.length)
    if multi.isEmpty then greedy_move p.2 inp2
    else (minByFirst (remaining_sum_after p.2) multi, p.2)

/-- `_tiles_to_key` (shutbox/policies.py), dict branch: each position
`1..tiles_max` is the tile's digits if open, else `X`. -/
def tiles_to_key (g : Game) : String :=
  String.join ((List.range' 1 g.tiles_max).map fun i =>
    if g.tiles i then toString i else "X")

/-- `table_policy_loader(path)`'s inner `pick_move` (shutbox/policies.py),
with the loaded JSON table abstracted as an association list from key to the
already-parsed move (`"8+3"` → `[8, 3]`): `game.roll()`; `None` when no
legal move; a table hit that is still legal is taken verbatim, otherwise
the greedy fallback `min(legal, key=remaining_sum_after)`. -/
def table_pick_move (table : List (String × List Nat)) (g : Game) (inp : RollInput) :
    Option (List Nat) × Game :=
  let p := g.roll inp
  let legal := compute_legal_moves p.2 p.1
  if legal.isEmpty then (none, p.2)
  else
    let key := tiles_to_key p.2 ++ "|" ++ toString p.1
    match table.lookup key with
    | some want =>
        if want ∈ legal then (some want, p.2)
        else (minByFirst (remaining_sum_after p.2) legal, p.2)
    | none => (minByFirst (remaining_sum_after p.2) legal, p.2)

end Shutbox

namespace CollectRuns

/-- `open_tiles_list` (scripts/collect_runs.py), dict branch. -/
def open_tiles_list (g : Game) : List Nat :=
  (List.range' 1 g.tiles_max).filter g.tiles

/-- `compute_legal_moves` (scripts/collect_runs.py): identical enumeration to
the policies module — singles equal to the roll, then pairs summing to it. -/
def compute_legal_moves (g : Game) (roll_val : Int) : List (List Nat) :=
  let opens := open_tiles_list g
  ((opens.filter fun (t : Nat) => decide ((t : Int) = roll_val)).map fun t => [t])
    ++ pairsSummingTo opens roll_val

/-- The step choice of `run` (scripts/collect_runs.py): `random.choice(legal)`
guarded by `if not legal: break`, modelled by the index `idx`. -/
def chosen_move (g : Game) (roll_val : Int) (idx : Nat) : Option (List Nat) :=
  let legal := compute_legal_moves g roll_val
  if legal.isEmpty then none else legal[idx % legal.length]?

end CollectRuns

namespace Analyze

/-- The per-strategy mean of `summary` (analyze_results.py), with the numeric
aggregation modelled exactly over `ℚ`. -/
def meanScore (scores : List Int) : ℚ := (scores.sum : ℚ) / (scores.length : ℚ)

/-- The `sort_values("mean_score")` ordering on strategy groups. -/
def byMean (p q : String × List Int) : Prop := meanScore p.2 ≤ meanScore q.2

instance : DecidableRel byMean := fun p q => by unfold byMean; infer_instance

instance : IsTotal (String × List Int) byMean := ⟨fun _ _ => le_total _ _⟩

instance : IsTrans (String × List Int) byMean := ⟨fun _ _ _ h1 h2 => le_trans h1 h2⟩

/-- `summary` (analyze_results.py): the groups in ascending order of mean
final score (pandas `sort_values` is order-preserving on ties; any sort
agrees on the property proved below). -/
def sort_by_mean (groups : List (String × List Int)) : List (String × List Int) :=
  groups.insertionSort byMean

/-- `best = summary.index[0]` (analyze_results.py): the head of the
mean-sorted summary. -/
def best_strategy (groups : List (String × List Int)) : Option (String × List Int) :=
  (sort_by_mean groups).head?

end Analyze

theorem combos_reference_example :
    combos_that_sum [1, 2, 3, 4, 5] 5 = [[1, 4], [2, 3], [5]] := by decide

theorem combos_reference_example_empty : combos_that_sum [2, 4, 6] 5 = [] := by decide

/-! ### Core lemmas about the combination enumerator -/

theorem sorted_open_tiles_nodup (g : Game) : g.open_tiles.Nodup :=
  List.Nodup.filter g.tiles (List.nodup_range' 1 g.tiles_max)

theorem open_tiles_one_le {g : Game} {x : Nat} (hx : x ∈ g.open_tiles) : 1 ≤ x := by
  have hx2 := List.of_mem_filter hx
  have hx1 : x ∈ List.range' 1 g.tiles_max := List.mem_of_mem_filter hx
  exact (List.mem_range'_1.mp hx1).1

theorem mem_combos_iff {nums : List Nat} (t : Int) (hnd : nums.Nodup) (c : List Nat) :
    c ∈ combos_that_sum nums t ↔
      c ≠ [] ∧ c.Sorted (· < ·) ∧ (∀ x ∈ c, x ∈ nums) ∧ (c.sum : Int) = t := by
  have hperm := List.perm_insertionSort (α := Nat) (· ≤ ·) nums
  have hsle : (nums.insertionSort (· ≤ ·)).Sorted (· ≤ ·) :=
    List.sorted_insertionSort (· ≤ ·) nums
  have hsnd : (nums.insertionSort (· ≤ ·)).Nodup := hperm.nodup_iff.mpr hnd
  have hslt : (nums.insertionSort (· ≤ ·)).Sorted (· < ·) := hsle.lt_of_le hsnd
  unfold combos_that_sum
  rw [(List.perm_insertionSort tupleLe _).mem_iff, List.mem_dedup, List.mem_filter,
    List.mem_sublists]
  constructor
  · rintro ⟨hsub, hp⟩
    rw [Bool.and_eq_true, Bool.not_eq_true', decide_eq_true_eq] at hp
    refine ⟨?_, List.Pairwise.sublist hsub hslt, ?_, hp.2⟩
    · intro h
      rw [h] at hp
      simp [List.isEmpty] at hp
    · intro x hx
      exact hperm.mem_iff.mp (hsub.subset hx)
  · rintro ⟨hne, hcs, hcsub, hsum⟩
    have hcnd : c.Nodup := hcs.nodup
    have hcle : c.Sorted (· ≤ ·) := hcs.imp le_of_lt
    have hsubp : List.Subperm c (nums.insertionSort (· ≤ ·)) :=
      List.subperm_of_subset hcnd fun x hx => hperm.mem_iff.mpr (hcsub x hx)
    refine ⟨List.sublist_of_subperm_of_sorted hsubp hcle hsle, ?_⟩
    rw [Bool.and_eq_true, Bool.not_eq_true', decide_eq_true_eq]
    refine ⟨?_, hsum⟩
    cases c with
    | nil => exact absurd rfl hne
    | cons a l => rfl

theorem combos_nodup (nums : List Nat) (t : Int) : (combos_that_sum nums t).Nodup := by
  unfold combos_that_sum
  exact (List.perm_insertionSort tupleLe _).nodup_iff.mpr (List.nodup_dedup _)

theorem combos_sorted_lex (nums : List Nat) (t : Int) :
    (combos_that_sum nums t).Sorted tupleLe := by
  unfold combos_that_sum
  exact List.sorted_insertionSort tupleLe _

theorem combos_empty_iff {nums : List Nat} (t : Int) (hnd : nums.Nodup) :
    combos_that_sum nums t = [] ↔
      ¬ ∃ c : List Nat, c ≠ [] ∧ c.Nodup ∧ (∀ x ∈ c, x ∈ nums) ∧ (c.sum : Int) = t := by
  rw [List.eq_nil_iff_forall_not_mem]
  constructor
  · rintro h ⟨c, hne, hcnd, hsub, hsum⟩
    have hsorted := List.sorted_insertionSort (α := Nat) (· ≤ ·) c
    have hcperm := List.perm_insertionSort (α := Nat) (· ≤ ·) c
    have hnd2 : (c.insertionSort (· ≤ ·)).Nodup := hcperm.nodup_iff.mpr hcnd
    refine h (c.insertionSort (· ≤ ·)) ?_
    rw [mem_combos_iff t hnd]
    refine ⟨?_, hsorted.lt_of_le hnd2, ?_, ?_⟩
    · intro hnil
      have h0 : ([] : List Nat).Perm c := hnil ▸ hcperm
      exact hne h0.symm.eq_nil
    · intro x hx
      exact hsub x (hcperm.mem_iff.mp hx)
    · rw [hcperm.sum_eq, hsum]
  · intro h c hc
    rw [mem_combos_iff t hnd] at hc
    exact h ⟨c, hc.1, hc.2.1.nodup, hc.2.2.1, hc.2.2.2⟩

/-! ### C1: the combination enumerator returns exactly the sorted subsets -/

/-- C1. For a finite set of distinct positive integers `nums` and any target,
`combos_that_sum` returns exactly the non-empty subsets of `nums` summing to
the target, each as an ascending sorted tuple, with no duplicates, sorted
lexicographically; and `available_moves` is this enumeration over the open
tiles. -/
theorem combos_that_sum_spec (nums : List Nat) (t : Int) (hnd : nums.Nodup)
    (hpos : ∀ x ∈ nums, 0 < x) :
    (∀ c, c ∈ combos_that_sum nums t ↔
      c ≠ [] ∧ c.Sorted (· < ·) ∧ (∀ x ∈ c, x ∈ nums) ∧ (c.sum : Int) = t) ∧
    (combos_that_sum nums t).Nodup ∧
    (combos_that_sum nums t).Sorted tupleLe ∧
    (∀ (g : Game) (c : List Nat), c ∈ g.available_moves t ↔
      c ≠ [] ∧ c.Sorted (· < ·) ∧ (∀ x ∈ c, x ∈ g.open_tiles) ∧ (c.sum : Int) = t) := by
  refine ⟨fun c => mem_combos_iff t hnd c, combos_nodup nums t, combos_sorted_lex nums t,
    fun g c => ?_⟩
  exact mem_combos_iff t (sorted_open_tiles_nodup g) c

theorem combos_that_sum_spec_w :
    (([1, 2, 3, 4, 5] : List Nat).Nodup ∧ (∀ x ∈ ([1, 2, 3, 4, 5] : List Nat), 0 < x)) ∧
    [2, 3] ∈ combos_that_sum [1, 2, 3, 4, 5] 5 :=
  ⟨⟨by decide, by decide⟩,
    ((combos_that_sum_spec [1, 2, 3, 4, 5] 5 (by decide) (by decide)).1 [2, 3]).mpr
      ⟨by decide, by decide, by decide, by decide⟩⟩

/-! ### Equation lemmas for `Game.move` -/

theorem move_eq_of_over {g : Game} (chosen : List Nat) (h : g.over = true) :
    g.move chosen = (false, g) := by
  simp [Game.move, h]

theorem move_eq_of_no_roll {g : Game} (chosen : List Nat) (h : g.over = false)
    (h2 : g.last_roll = none) : g.move chosen = (false, g) := by
  simp [Game.move, h, h2]

theorem move_eq_of_not_mem {g : Game} {r : Int} (chosen : List Nat) (h : g.over = false)
    (h2 : g.last_roll = some r)
    (h3 : chosen.insertionSort (· ≤ ·) ∉ g.available_moves r) :
    g.move chosen = (false, g) := by
  simp [Game.move, h, h2, h3]

theorem move_eq_of_mem {g : Game} {r : Int} (chosen : List Nat) (h : g.over = false)
    (h2 : g.last_roll = some r)
    (h3 : chosen.insertionSort (· ≤ ·) ∈ g.available_moves r) :
    g.move chosen =
      (true,
        { g with
          tiles := fun t => if t ∈ chosen.insertionSort (· ≤ ·) then false else g.tiles t
          last_roll := none
          over := ((List.range' 1 g.tiles_max).filter
            (fun t => if t ∈ chosen.insertionSort (· ≤ ·) then false
                      else g.tiles t)).isEmpty }) := by
  simp [Game.move, h, h2, h3]

/-! ### C2: postconditions of a successful move -/

/-- C2. Any `move(chosen)` that returns success closes every tile in
`chosen`, clears `last_roll`, and leaves `over` true iff no tile remains
open. -/
theorem move_success_spec (g : Game) (chosen : List Nat)
    (h : (g.move chosen).1 = true) :
    (∀ t ∈ chosen, (g.move chosen).2.tiles t = false) ∧
    (g.move chosen).2.last_roll = none ∧
    ((g.move chosen).2.over = true ↔ (g.move chosen).2.open_tiles = []) := by
  by_cases hov : g.over = true
  · rw [move_eq_of_over chosen hov] at h
    simp at h
  · rw [Bool.not_eq_true] at hov
    cases hlr : g.last_roll with
    | none =>
      rw [move_eq_of_no_roll chosen hov hlr] at h
      simp at h
    | some r =>
      by_cases hmem : chosen.insertionSort (· ≤ ·) ∈ g.available_moves r
      · rw [move_eq_of_mem chosen hov hlr hmem]
        refine ⟨?_, rfl, ?_⟩
        · intro t ht
          have htm : t ∈ chosen.insertionSort (· ≤ ·) :=
            (List.perm_insertionSort (· ≤ ·) chosen).mem_iff.mpr ht
          simp [htm]
        · rw [Game.open_tiles]
          exact List.isEmpty_iff
      · rw [move_eq_of_not_mem chosen hov hlr hmem] at h
        simp at h

def gFresh : Game := Game.init 9 true

def gAfterRoll5 : Game := (gFresh.roll (.forced 5)).2

theorem move_success_spec_w :
    (gAfterRoll5.move [2, 3]).1 = true ∧ (gAfterRoll5.move [2, 3]).2.last_roll = none :=
  ⟨by decide, (move_success_spec gAfterRoll5 [2, 3] (by decide)).2.1⟩

/-! ### C3: move failure modes and the failure frame condition -/

theorem move_fail_cases (g : Game) (chosen : List Nat) :
    ((g.over = true ∨ g.last_roll = none ∨
        (∀ r, g.last_roll = some r →
          chosen.insertionSort (· ≤ ·) ∉ g.available_moves r)) →
      (g.move chosen).1 = false) ∧
    ((g.move chosen).1 = false → (g.move chosen).2 = g) := by
  by_cases hov : g.over = true
  · rw [move_eq_of_over chosen hov]
    exact ⟨fun _ => rfl, fun _ => rfl⟩
  · rw [Bool.not_eq_true] at hov
    cases hlr : g.last_roll with
    | none =>
      rw [move_eq_of_no_roll chosen hov hlr]
      exact ⟨fun _ => rfl, fun _ => rfl⟩
    | some r =>
      by_cases hmem : chosen.insertionSort (· ≤ ·) ∈ g.available_moves r
      · rw [move_eq_of_mem chosen hov hlr hmem]
        constructor
        · rintro (h | h | h)
          · rw [h] at hov; simp at hov
          · exact Option.noConfusion h
          · exact absurd hmem (h r rfl)
        · intro h
          simp at h
      · rw [move_eq_of_not_mem chosen hov hlr hmem]
        exact ⟨fun _ => rfl, fun _ => rfl⟩

/-- C3. `move(chosen)` fails whenever the game is over, no roll is pending,
or the sorted tuple of `chosen` is not among the available moves; and any
failing `move` leaves the state (tiles, `over`, `last_roll`) unchanged. -/
theorem move_failure_spec (g : Game) (chosen : List Nat) :
    ((g.over = true ∨ g.last_roll = none ∨
        (∀ r, g.last_roll = some r →
          chosen.insertionSort (· ≤ ·) ∉ g.available_moves r)) →
      (g.move chosen).1 = false) ∧
    ((g.move chosen).1 = false → (g.move chosen).2 = g) :=
  move_fail_cases g chosen

theorem move_failure_spec_w :
    (gFresh.move [1]).1 = false ∧ (gFresh.move [1]).2 = gFresh :=
  ⟨(move_failure_spec gFresh [1]).1 (Or.inr (Or.inl rfl)),
    (move_failure_spec gFresh [1]).2 ((move_failure_spec gFresh [1]).1 (Or.inr (Or.inl rfl)))⟩

/-! ### C4: a move-less roll ends the game; game-over is absorbing -/

/-- C4. A roll whose value has no available move sets `over`; and once `over`
holds, `roll` returns the last recorded roll (or 0 if none) and `move`
fails, neither call changing any part of the state. -/
theorem over_absorbing_spec (g : Game) (inp : RollInput) (chosen : List Nat) :
    (g.over = false → g.available_moves ((g.roll inp).1) = [] →
      ((g.roll inp).2).over = true) ∧
    (g.over = true →
      (g.roll inp).1 = g.last_roll.getD 0 ∧ (g.roll inp).2 = g ∧
      (g.move chosen).1 = false ∧ (g.move chosen).2 = g) := by
  constructor
  · intro hov hmoves
    unfold Game.roll at hmoves ⊢
    simp only [hov, Bool.false_eq_true, if_false] at hmoves ⊢
    rw [hmoves]
    rfl
  · intro hov
    have hmv := (move_fail_cases g chosen).1 (Or.inl hov)
    refine ⟨?_, ?_, hmv, (move_fail_cases g chosen).2 hmv⟩
    · unfold Game.roll
      simp [hov]
    · unfold Game.roll
      simp [hov]

def gDead : Game :=
  { tiles_max := 2
    single_die_rule := true
    tiles := fun i => decide (1 ≤ i ∧ i ≤ 2)
    over := true
    last_roll := some 7 }

theorem over_absorbing_spec_w :
    gDead.over = true ∧ (gDead.roll (.forced 3)).1 = gDead.last_roll.getD 0 ∧
    (gDead.roll (.forced 3)).2 = gDead ∧ (gDead.move [1]).1 = false :=
  ⟨rfl, ((over_absorbing_spec gDead (.forced 3) [1]).2 rfl).1,
    ((over_absorbing_spec gDead (.forced 3) [1]).2 rfl).2.1,
    ((over_absorbing_spec gDead (.forced 3) [1]).2 rfl).2.2.1⟩

/-! ### C10: forced rolls are unvalidated -/

theorem roll_not_over_eq {g : Game} (inp : RollInput) (h : g.over = false) :
    g.roll inp =
      (match inp with
        | .forced v => v
        | .dice d1 d2 => if g.can_use_single_die then (d1 : Int) else (d1 : Int) + (d2 : Int),
       { g with
         last_roll := some (match inp with
           | .forced v => v
           | .dice d1 d2 =>
             if g.can_use_single_die then (d1 : Int) else (d1 : Int) + (d2 : Int))
         over := (g.available_moves (match inp with
           | .forced v => v
           | .dice d1 d2 =>
             if g.can_use_single_die then (d1 : Int)
             else (d1 : Int) + (d2 : Int))).isEmpty }) := by
  simp [Game.roll, h]

/-- C10. `roll(forced=v)` on a game that is not over stores exactly `v` in
`last_roll` with no range validation, leaves the tiles unchanged, and ends
the game iff no non-empty duplicate-free subset of the open tiles sums to
`v`; any `v ≤ 0` on a board with an open tile ends the game at once. -/
theorem roll_forced_spec (g : Game) (v : Int) (hnotover : g.over = false) :
    (g.roll (.forced v)).1 = v ∧
    ((g.roll (.forced v)).2).last_roll = some v ∧
    ((g.roll (.forced v)).2).tiles = g.tiles ∧
    (((g.roll (.forced v)).2).over = true ↔
      ¬ ∃ c : List Nat, c ≠ [] ∧ c.Nodup ∧ (∀ x ∈ c, x ∈ g.open_tiles) ∧
        (c.sum : Int) = v) ∧
    (v ≤ 0 → g.open_tiles ≠ [] → ((g.roll (.forced v)).2).over = true) := by
  rw [roll_not_over_eq (.forced v) hnotover]
  refine ⟨rfl, rfl, rfl, ?_, ?_⟩
  · rw [List.isEmpty_iff]
    show combos_that_sum g.open_tiles v = [] ↔ _
    exact combos_empty_iff v (sorted_open_tiles_nodup g)
  · intro hv _hopen
    rw [List.isEmpty_iff]
    show combos_that_sum g.open_tiles v = []
    rw [combos_empty_iff v (sorted_open_tiles_nodup g)]
    rintro ⟨c, hne, _hnd, hsub, hsum⟩
    cases c with
    | nil => exact hne rfl
    | cons a l =>
      have ha : 1 ≤ a := open_tiles_one_le (hsub a (List.mem_cons_self a l))
      have hle : (a : Int) ≤ ((a :: l).sum : Nat) := by
        exact_mod_cast List.le_sum_of_mem (List.mem_cons_self a l)
      have : (1 : Int) ≤ ((a :: l).sum : Nat) := le_trans (by exact_mod_cast ha) hle
      omega

theorem roll_forced_spec_w :
    (Game.init 9 true).over = false ∧ (-2 : Int) ≤ 0 ∧
    ((Game.init 9 true).roll (.forced (-2))).1 = -2 ∧
    ((Game.init 9 true).roll (.forced (-2))).2.over = true :=
  ⟨rfl, by decide, (roll_forced_spec (Game.init 9 true) (-2) rfl).1,
    (roll_forced_spec (Game.init 9 true) (-2) rfl).2.2.2.2 (by decide) (by decide)⟩

/-! ### C5: the single-die gate only inspects tiles 7, 8, 9 -/

/-- A 10-tile board, rule enabled, with only the high tile 10 still open. -/
def gWide : Game :=
  { tiles_max := 10
    single_die_rule := true
    tiles := fun t => decide (t = 10)
    over := false
    last_roll := none }

/-- C5 counterexample: on a 10-tile board with tile 10 (a tile greater than 6)
still open, `can_use_single_die()` already returns true, refuting the claim
that it is true only when every tile greater than 6 on the board is closed. -/
theorem can_use_single_die_cex :
    gWide.can_use_single_die = true ∧ 10 ∈ gWide.open_tiles ∧ 6 < 10 := by
  refine ⟨by decide, ?_, by decide⟩
  decide

/-- C5 amended. For every board with `tiles_max ≥ 1`, `can_use_single_die()`
is true iff the rule is enabled and every tile of `{7, 8, 9}` that exists on
the board is closed (tiles above 9 are never consulted); it is false
whenever the rule is disabled. -/
theorem can_use_single_die_spec (g : Game) (h1 : 1 ≤ g.tiles_max) :
    (g.can_use_single_die = true ↔
      (g.single_die_rule = true ∧ ∀ i ∈ [7, 8, 9], i ≤ g.tiles_max → g.tiles i = false)) ∧
    (g.single_die_rule = false → g.can_use_single_die = false) := by
  constructor
  · unfold Game.can_use_single_die
    cases hrule : g.single_die_rule with
    | false => simp
    | true =>
      simp only [Bool.not_true, Bool.false_eq_true, if_false, List.all_eq_true,
        List.mem_filter, decide_eq_true_eq, Bool.not_eq_true']
      constructor
      · intro hall
        exact ⟨trivial, fun i hi hle => hall i ⟨hi, by simpa using hle⟩⟩
      · rintro ⟨-, hall⟩ i hi
        exact hall i hi.1 (by simpa using hi.2)
  · intro hrule
    unfold Game.can_use_single_die
    simp [hrule]

theorem can_use_single_die_spec_w :
    1 ≤ (Game.init 9 true).tiles_max ∧ (Game.init 9 true).can_use_single_die = false :=
  ⟨by decide,
    by
      have h := (can_use_single_die_spec (Game.init 9 true) (by decide)).1
      rw [Bool.eq_false_iff]
      intro hcontra
      have h2 := h.mp hcontra
      exact absurd (h2.2 7 (by decide) (by decide)) (by decide)⟩

/-! ### Lemmas about `minByFirst` and the two-tile legal-move enumeration -/

theorem foldl_minBy_mem (key : List Nat → Int) :
    ∀ (ms : List (List Nat)) (b : List Nat),
      ms.foldl (fun best mv => if key mv < key best then mv else best) b = b ∨
      ms.foldl (fun best mv => if key mv < key best then mv else best) b ∈ ms := by
  intro ms
  induction ms with
  | nil => intro b; left; rfl
  | cons m ms ih =>
    intro b
    rcases ih (if key m < key b then m else b) with h | h
    · rw [List.foldl_cons, h]
      by_cases hk : key m < key b
      · right; simp [hk]
      · left; simp [hk]
    · right
      rw [List.foldl_cons]
      exact List.mem_cons_of_mem m h

theorem minByFirst_mem {key : List Nat → Int} {l : List (List Nat)} {m : List Nat}
    (h : minByFirst key l = some m) : m ∈ l := by
  cases l with
  | nil => exact Option.noConfusion h
  | cons b ms =>
    unfold minByFirst at h
    rw [Option.some_inj] at h
    rcases foldl_minBy_mem key ms b with h2 | h2
    · rw [← h, h2]; exact List.mem_cons_self b ms
    · rw [← h]; exact List.mem_cons_of_mem b h2

theorem foldl_minBy_const {key : List Nat → Int} {k : Int} :
    ∀ (ms : List (List Nat)) (b : List Nat), key b = k → (∀ x ∈ ms, key x = k) →
      ms.foldl (fun best mv => if key mv < key best then mv else best) b = b := by
  intro ms
  induction ms with
  | nil => intro b _ _; rfl
  | cons m ms ih =>
    intro b hb hall
    rw [List.foldl_cons]
    have hm : key m = k := hall m (List.mem_cons_self m ms)
    have : ¬ key m < key b := by rw [hm, hb]; exact lt_irrefl k
    rw [if_neg this]
    exact ih b hb fun x hx => hall x (List.mem_cons_of_mem m hx)

theorem minByFirst_const {key : List Nat → Int} {k : Int} {l : List (List Nat)}
    (hall : ∀ x ∈ l, key x = k) : minByFirst key l = l.head? := by
  cases l with
  | nil => rfl
  | cons b ms =>
    unfold minByFirst
    rw [List.head?_cons, Option.some_inj]
    exact foldl_minBy_const ms b (hall b (List.mem_cons_self b ms))
      fun x hx => hall x (List.mem_cons_of_mem b hx)

theorem mem_pairsSummingTo {r : Int} :
    ∀ {l : List Nat} {mv : List Nat}, mv ∈ pairsSummingTo l r →
      mv.length = 2 ∧ (mv.sum : Int) = r := by
  intro l
  induction l with
  | nil => intro mv h; exact absurd h (List.not_mem_nil mv)
  | cons a rest ih =>
    intro mv h
    rw [pairsSummingTo, List.mem_append] at h
    rcases h with h | h
    · rcases List.mem_map.mp h with ⟨b, hb, rfl⟩
      have hsum := List.of_mem_filter hb
      rw [decide_eq_true_eq] at hsum
      constructor
      · rfl
      · push_cast
        simpa using hsum
    · exact ih h

theorem mem_shutbox_legal {g : Game} {r : Int} {mv : List Nat}
    (h : mv ∈ Shutbox.compute_legal_moves g r) :
    (mv.length = 1 ∨ mv.length = 2) ∧ (mv.sum : Int) = r := by
  unfold Shutbox.compute_legal_moves at h
  rw [List.mem_append] at h
  rcases h with h | h
  · rcases List.mem_map.mp h with ⟨t, ht, rfl⟩
    have hsum := List.of_mem_filter ht
    rw [decide_eq_true_eq] at hsum
    exact ⟨Or.inl rfl, by simpa using hsum⟩
  · exact ⟨Or.inr (mem_pairsSummingTo h).1, (mem_pairsSummingTo h).2⟩

theorem shutbox_legal_key_const {g : Game} {r : Int} {mv : List Nat}
    (h : mv ∈ Shutbox.compute_legal_moves g r) :
    Shutbox.remaining_sum_after g mv = ((Shutbox.open_tiles_list g).sum : Int) - r := by
  unfold Shutbox.remaining_sum_after
  rw [(mem_shutbox_legal h).2]

theorem shutbox_head_fewest {g : Game} {r : Int} {m : List Nat}
    (h : (Shutbox.compute_legal_moves g r).head? = some m) :
    ∀ mv2 ∈ Shutbox.compute_legal_moves g r, m.length ≤ mv2.length := by
  intro mv2 hmv2
  have h2 := (mem_shutbox_legal hmv2).1
  simp only [Shutbox.compute_legal_moves] at h
  cases hs : (Shutbox.open_tiles_list g).filter (fun (t : Nat) => decide ((t : Int) = r)) with
  | nil =>
    rw [hs, List.map_nil, List.nil_append] at h
    have hm : m ∈ pairsSummingTo (Shutbox.open_tiles_list g) r :=
      List.mem_of_mem_head? (h ▸ Option.mem_def.mpr rfl)
    simp only [Shutbox.compute_legal_moves] at hmv2
    rw [hs, List.map_nil, List.nil_append] at hmv2
    rw [(mem_pairsSummingTo hm).1, (mem_pairsSummingTo hmv2).1]
  | cons t ts =>
    rw [hs, List.map_cons, List.cons_append, List.head?_cons, Option.some_inj] at h
    rw [← h, List.length_singleton]
    rcases h2 with h2 | h2 <;> omega

/-! ### C6: greedy tie-breaking -/

/-- C6 counterexample: a fresh 9-tile board with forced roll 5.  All three
available moves `[1,4]`, `[2,3]`, `[5]` leave the same board score, yet
`policy_greedy_min_remaining` returns the two-tile `[1,4]` although the
tied single-tile move `[5]` exists — Python `min` keeps the first tied
element of the lexicographically sorted move list, not the smallest move. -/
theorem greedy_tie_cex :
    (policy_greedy_min_remaining gFresh (.forced 5)).1 = some [1, 4] ∧
    [5] ∈ ((gFresh.roll (.forced 5)).2).available_moves ((gFresh.roll (.forced 5)).1) ∧
    ([5] : List Nat).length < ([1, 4] : List Nat).length ∧
    (((gFresh.roll (.forced 5)).2).open_tiles.sum : Int) - (([5] : List Nat).sum : Int) =
      (((gFresh.roll (.forced 5)).2).open_tiles.sum : Int) -
        (([1, 4] : List Nat).sum : Int) := by
  refine ⟨?_, ?_, by decide, by decide⟩ <;> decide

/-- C6 amended. The policies-module `greedy_move` does satisfy the claim:
whenever it returns a move, that move is legal and has the fewest tiles
among the legal moves tied for minimal remaining sum (its enumeration lists
one-tile moves before two-tile moves and Python `min` keeps the first tied
minimum); the simulator's `policy_greedy_min_remaining` instead returns the
lexicographically first tied move, which may use more tiles. -/
theorem greedy_move_fewest_tiles (g : Game) (inp : RollInput) (mv : List Nat)
    (h : (Shutbox.greedy_move g inp).1 = some mv) :
    mv ∈ Shutbox.compute_legal_moves ((g.roll inp).2) ((g.roll inp).1) ∧
    ∀ mv2 ∈ Shutbox.compute_legal_moves ((g.roll inp).2) ((g.roll inp).1),
      Shutbox.remaining_sum_after ((g.roll inp).2) mv2 =
        Shutbox.remaining_sum_after ((g.roll inp).2) mv →
      mv.length ≤ mv2.length := by
  have h' : minByFirst (Shutbox.remaining_sum_after ((g.roll inp).2))
      (Shutbox.compute_legal_moves ((g.roll inp).2) ((g.roll inp).1)) = some mv := h
  have hhead : (Shutbox.compute_legal_moves ((g.roll inp).2) ((g.roll inp).1)).head? =
      some mv := by
    rw [← minByFirst_const (k := ((Shutbox.open_tiles_list ((g.roll inp).2)).sum : Int) -
      (g.roll inp).1) (fun x hx => shutbox_legal_key_const hx)]
    exact h'
  exact ⟨minByFirst_mem h', fun mv2 hmv2 _tie => shutbox_head_fewest hhead mv2 hmv2⟩

theorem greedy_move_fewest_tiles_w :
    (Shutbox.greedy_move gFresh (.forced 5)).1 = some [5] ∧
    ∀ mv2 ∈ Shutbox.compute_legal_moves ((gFresh.roll (.forced 5)).2)
        ((gFresh.roll (.forced 5)).1),
      Shutbox.remaining_sum_after ((gFresh.roll (.forced 5)).2) mv2 =
        Shutbox.remaining_sum_after ((gFresh.roll (.forced 5)).2) [5] →
      ([5] : List Nat).length ≤ mv2.length :=
  ⟨by decide, (greedy_move_fewest_tiles gFresh (.forced 5) [5] (by decide)).2⟩

/-! ### C7: policies mutate the engine through the roll they perform -/

/-- C7 counterexample: on a fresh board `last_roll` is `None`, yet after
evaluating the greedy policy (which internally calls `game.roll()`) it is 5
— policy evaluation does not leave `last_roll` unchanged. -/
theorem policy_mutates_cex :
    gFresh.last_roll = none ∧
    ((policy_greedy_min_remaining gFresh (.forced 5)).2).last_roll = some 5 := by
  refine ⟨rfl, ?_⟩
  decide

theorem roll_preserves_tiles (g : Game) (inp : RollInput) :
    ((g.roll inp).2).tiles = g.tiles ∧ ((g.roll inp).2).tiles_max = g.tiles_max := by
  unfold Game.roll
  by_cases hov : g.over = true
  · simp [hov]
  · rw [Bool.not_eq_true] at hov
    simp [hov]

/-- C7 amended. Every built-in policy leaves the tiles map (and the board
size) unchanged: its only engine mutation happens through the `game.roll()`
call(s) it performs, which touch only `last_roll` and `over`. -/
theorem policy_frame_spec (g : Game) (inp inp2 : RollInput) (idx : Nat)
    (table : List (String × List Nat)) :
    ((policy_random g inp idx).2.tiles = g.tiles ∧
      (policy_random g inp idx).2.tiles_max = g.tiles_max) ∧
    ((policy_greedy_min_remaining g inp).2.tiles = g.tiles ∧
      (policy_greedy_min_remaining g inp).2.tiles_max = g.tiles_max) ∧
    ((policy_human_like g inp inp2).2.tiles = g.tiles ∧
      (policy_human_like g inp inp2).2.tiles_max = g.tiles_max) ∧
    ((Shutbox.random_move g inp idx).2.tiles = g.tiles ∧
      (Shutbox.random_move g inp idx).2.tiles_max = g.tiles_max) ∧
    ((Shutbox.greedy_move g inp).2.tiles = g.tiles ∧
      (Shutbox.greedy_move g inp).2.tiles_max = g.tiles_max) ∧
    ((Shutbox.human_move g inp inp2).2.tiles = g.tiles ∧
      (Shutbox.human_move g inp inp2).2.tiles_max = g.tiles_max) ∧
    ((Shutbox.table_pick_move table g inp).2.tiles = g.tiles ∧
      (Shutbox.table_pick_move table g inp).2.tiles_max = g.tiles_max) := by
  have h1 := roll_preserves_tiles g inp
  have h2 := roll_preserves_tiles ((g.roll inp).2) inp2
  refine ⟨⟨h1.1, h1.2⟩, ⟨h1.1, h1.2⟩, ?_, ⟨h1.1, h1.2⟩, ⟨h1.1, h1.2⟩, ?_, ?_⟩
  · unfold policy_human_like
    by_cases hmo : (((g.roll inp).2).available_moves ((g.roll inp).1)).isEmpty = true
    · simp only [hmo, if_true]
      exact ⟨h1.1, h1.2⟩
    · rw [Bool.not_eq_true] at hmo
      simp only [hmo, Bool.false_eq_true, if_false]
      by_cases hmu : ((((g.roll inp).2).available_moves ((g.roll inp).1)).filter
          (fun mv => decide (2 ≤ mv.length))).isEmpty = true
      · simp only [hmu, if_true]
        unfold policy_greedy_min_remaining
        exact ⟨h2.1.trans h1.1, h2.2.trans h1.2⟩
      · rw [Bool.not_eq_true] at hmu
        simp only [hmu, Bool.false_eq_true, if_false]
        exact ⟨h1.1, h1.2⟩
  · unfold Shutbox.human_move
    by_cases hmo : (Shutbox.compute_legal_moves ((g.roll inp).2) ((g.roll inp).1)).isEmpty
        = true
    · simp only [hmo, if_true]
      exact ⟨h1.1, h1.2⟩
    · rw [Bool.not_eq_true] at hmo
      simp only [hmo, Bool.false_eq_true, if_false]
      by_cases hmu : ((Shutbox.compute_legal_moves ((g.roll inp).2)
          ((g.roll inp).1)).filter (fun mv => decide (2 ≤ mv.length))).isEmpty = true
      · simp only [hmu, if_true]
        unfold Shutbox.greedy_move
        exact ⟨h2.1.trans h1.1, h2.2.trans h1.2⟩
      · simp only [hmu, Bool.false_eq_true, if_false]
        exact ⟨h1.1, h1.2⟩
  · unfold Shutbox.table_pick_move
    by_cases hmo : (Shutbox.compute_legal_moves ((g.roll inp).2) ((g.roll inp).1)).isEmpty
        = true
    · simp only [hmo, if_true]
      exact ⟨h1.1, h1.2⟩
    · rw [Bool.not_eq_true] at hmo
      simp only [hmo, Bool.false_eq_true, if_false]
      cases table.lookup (Shutbox.tiles_to_key ((g.roll inp).2) ++ "|" ++
          toString ((g.roll inp).1)) with
      | none => exact ⟨h1.1, h1.2⟩
      | some want =>
        by_cases hw : want ∈ Shutbox.compute_legal_moves ((g.roll inp).2) ((g.roll inp).1)
        · simp only [hw, if_true]
          exact ⟨h1.1, h1.2⟩
        · simp only [hw, if_false]
          exact ⟨h1.1, h1.2⟩

/-! ### C9: every policy-module move has at most two tiles -/

theorem shutbox_legal_le_two {g : Game} {r : Int} {m : List Nat}
    (h : m ∈ Shutbox.compute_legal_moves g r) : m.length ≤ 2 := by
  rcases (mem_shutbox_legal h).1 with h1 | h1 <;> omega

theorem collect_eq_shutbox :
    CollectRuns.compute_legal_moves = Shutbox.compute_legal_moves := rfl

theorem guarded_choice_mem {l : List (List Nat)} {idx : Nat} {mv : List Nat}
    (h : (if l.isEmpty then none else l[idx % l.length]?) = some mv) : mv ∈ l := by
  by_cases he : l.isEmpty = true
  · rw [if_pos he] at h
    exact Option.noConfusion h
  · rw [if_neg he] at h
    exact List.getElem?_mem h

/-- C9. The policy-module legal-move enumeration (and its copy in the
run-collection script) yields only one- and two-tile moves, so every move
returned by `random_move`, `greedy_move`, `human_move`, the table-lookup
policy, and the run-collection step choice has at most two tiles — even
when the engine's `available_moves` contains larger combinations. -/
theorem legal_moves_at_most_two (g : Game) (r : Int) (inp inp2 : RollInput)
    (idx : Nat) (table : List (String × List Nat)) (mv : List Nat) :
    (∀ m ∈ Shutbox.compute_legal_moves g r, m.length ≤ 2) ∧
    (∀ m ∈ CollectRuns.compute_legal_moves g r, m.length ≤ 2) ∧
    ((Shutbox.random_move g inp idx).1 = some mv → mv.length ≤ 2) ∧
    ((Shutbox.greedy_move g inp).1 = some mv → mv.length ≤ 2) ∧
    ((Shutbox.human_move g inp inp2).1 = some mv → mv.length ≤ 2) ∧
    ((Shutbox.table_pick_move table g inp).1 = some mv → mv.length ≤ 2) ∧
    (CollectRuns.chosen_move g r idx = some mv → mv.length ≤ 2) := by
  refine ⟨fun m hm => shutbox_legal_le_two hm,
    fun m hm => shutbox_legal_le_two (collect_eq_shutbox ▸ hm), ?_, ?_, ?_, ?_, ?_⟩
  · intro h
    exact shutbox_legal_le_two (guarded_choice_mem h)
  · intro h
    exact shutbox_legal_le_two (minByFirst_mem h)
  · intro h
    unfold Shutbox.human_move at h
    by_cases hmo : (Shutbox.compute_legal_moves ((g.roll inp).2) ((g.roll inp).1)).isEmpty
        = true
    · simp only [hmo, if_true] at h
      exact Option.noConfusion h
    · rw [Bool.not_eq_true] at hmo
      simp only [hmo, Bool.false_eq_true, if_false] at h
      by_cases hmu : ((Shutbox.compute_legal_moves ((g.roll inp).2)
          ((g.roll inp).1)).filter (fun mv => decide (2 ≤ mv.length))).isEmpty = true
      · simp only [hmu, if_true] at h
        exact shutbox_legal_le_two (minByFirst_mem h)
      · simp only [hmu, Bool.false_eq_true, if_false] at h
        have hmem := minByFirst_mem h
        exact shutbox_legal_le_two (List.mem_of_mem_filter hmem)
  · intro h
    unfold Shutbox.table_pick_move at h
    by_cases hmo : (Shutbox.compute_legal_moves ((g.roll inp).2) ((g.roll inp).1)).isEmpty
        = true
    · simp only [hmo, if_true] at h
      exact Option.noConfusion h
    · rw [Bool.not_eq_true] at hmo
      simp only [hmo, Bool.false_eq_true, if_false] at h
      cases hlk : table.lookup (Shutbox.tiles_to_key ((g.roll inp).2) ++ "|" ++
          toString ((g.roll inp).1)) with
      | none =>
        rw [hlk] at h
        exact shutbox_legal_le_two (minByFirst_mem h)
      | some want =>
        rw [hlk] at h
        by_cases hw : want ∈ Shutbox.compute_legal_moves ((g.roll inp).2) ((g.roll inp).1)
        · simp only [hw, if_true, Option.some_inj] at h
          exact h ▸ shutbox_legal_le_two hw
        · simp only [hw, if_false] at h
          exact shutbox_legal_le_two (minByFirst_mem h)
  · intro h
    unfold CollectRuns.chosen_move at h
    rw [collect_eq_shutbox] at h
    exact shutbox_legal_le_two (guarded_choice_mem h)

theorem legal_moves_at_most_two_w :
    [1, 4] ∈ Shutbox.compute_legal_moves gAfterRoll5 5 ∧ ([1, 4] : List Nat).length ≤ 2 :=
  ⟨by decide,
    (legal_moves_at_most_two gAfterRoll5 5 (.forced 5) (.forced 5) 0 [] [1, 4]).1
      [1, 4] (by decide)⟩

/-! ### C8: the aggregator ranks by ascending mean -/

theorem int_mul_length_lt_sum {a : Int} :
    ∀ {bs : List Int}, bs ≠ [] → (∀ b ∈ bs, a < b) → a * bs.length < bs.sum := by
  intro bs
  induction bs with
  | nil => intro h _; exact absurd rfl h
  | cons b rest ih =>
    intro _ hall
    have hab : a < b := hall b (List.mem_cons_self b rest)
    cases rest with
    | nil => simpa using hab
    | cons c cs =>
      have hrest := ih (by simp) fun x hx => hall x (List.mem_cons_of_mem b hx)
      rw [List.sum_cons, List.length_cons]
      have hexp : a * ((c :: cs).length + 1 : Nat) = a * ((c :: cs).length : Nat) + a := by
        push_cast
        ring
      rw [hexp]
      calc a * ((c :: cs).length : Nat) + a < (c :: cs).sum + b :=
            add_lt_add hrest hab
        _ = b + (c :: cs).sum := add_comm _ _

theorem sum_lt_of_forall_lt :
    ∀ {as : List Int}, ∀ {bs : List Int}, as ≠ [] → bs ≠ [] →
      (∀ a ∈ as, ∀ b ∈ bs, a < b) → as.sum * bs.length < bs.sum * as.length := by
  intro as
  induction as with
  | nil => intro bs h _ _; exact absurd rfl h
  | cons a rest ih =>
    intro bs _ hbne hall
    have ha : a * bs.length < bs.sum := int_mul_length_lt_sum hbne
      (hall a (List.mem_cons_self a rest))
    cases rest with
    | nil => simpa using ha
    | cons c cs =>
      have hrest := ih (by simp) hbne fun x hx => hall x (List.mem_cons_of_mem a hx)
      rw [List.sum_cons, List.length_cons]
      have hL : (a + (c :: cs).sum) * (bs.length : Int) =
          a * bs.length + (c :: cs).sum * bs.length := by ring
      have hR : bs.sum * (((c :: cs).length : Nat) + 1 : Nat) =
          bs.sum + bs.sum * ((c :: cs).length : Nat) := by
        push_cast
        ring
      rw [hL, hR]
      calc a * (bs.length : Int) + (c :: cs).sum * bs.length
          < bs.sum + bs.sum * ((c :: cs).length : Nat) := add_lt_add ha hrest

theorem meanScore_lt {as bs : List Int} (hane : as ≠ []) (hbne : bs ≠ [])
    (h : ∀ a ∈ as, ∀ b ∈ bs, a < b) : Analyze.meanScore as < Analyze.meanScore bs := by
  unfold Analyze.meanScore
  have h0a : 0 < (as.length : ℚ) := by
    have := List.length_pos.mpr hane
    exact_mod_cast this
  have h0b : 0 < (bs.length : ℚ) := by
    have := List.length_pos.mpr hbne
    exact_mod_cast this
  rw [div_lt_div_iff h0a h0b]
  exact_mod_cast sum_lt_of_forall_lt hane hbne h

/-- C8. If every final score of strategy `A` is strictly below every final
score of strategy `B` (both non-empty), the mean-sorted summary places `A`
strictly before `B`; the reported best strategy is always one of minimal
mean, and when `A`'s mean is strictly minimal the best strategy is `A`. -/
theorem aggregator_spec (groups : List (String × List Int)) (A B : String × List Int)
    (hA : A ∈ groups) (hB : B ∈ groups) (hAne : A.2 ≠ []) (hBne : B.2 ≠ [])
    (hdom : ∀ a ∈ A.2, ∀ b ∈ B.2, a < b) :
    (∀ i j : Fin (Analyze.sort_by_mean groups).length,
        (Analyze.sort_by_mean groups).get i = A →
        (Analyze.sort_by_mean groups).get j = B → (i : Nat) < (j : Nat)) ∧
    (∀ p, Analyze.best_strategy groups = some p →
        p ∈ groups ∧ ∀ q ∈ groups, Analyze.meanScore p.2 ≤ Analyze.meanScore q.2) ∧
    ((∀ q ∈ groups, q ≠ A → Analyze.meanScore A.2 < Analyze.meanScore q.2) →
        Analyze.best_strategy groups = some A) := by
  have hAB : Analyze.meanScore A.2 < Analyze.meanScore B.2 := meanScore_lt hAne hBne hdom
  have hsorted : (Analyze.sort_by_mean groups).Sorted Analyze.byMean :=
    List.sorted_insertionSort Analyze.byMean groups
  have hperm : (Analyze.sort_by_mean groups).Perm groups :=
    List.perm_insertionSort Analyze.byMean groups
  have hmin : ∀ p, Analyze.best_strategy groups = some p →
      p ∈ groups ∧ ∀ q ∈ groups, Analyze.meanScore p.2 ≤ Analyze.meanScore q.2 := by
    intro p hp
    unfold Analyze.best_strategy at hp
    cases hsort : Analyze.sort_by_mean groups with
    | nil => rw [hsort] at hp; exact Option.noConfusion hp
    | cons q t =>
      rw [hsort, List.head?_cons, Option.some_inj] at hp
      subst hp
      constructor
      · exact hperm.mem_iff.mp (by rw [hsort]; exact List.mem_cons_self q t)
      · intro q2 hq2
        have hq2s : q2 ∈ Analyze.sort_by_mean groups := hperm.mem_iff.mpr hq2
        rw [hsort] at hq2s
        rcases List.mem_cons.mp hq2s with rfl | hq2t
        · exact le_refl _
        · have hs2 : (q :: t).Sorted Analyze.byMean := by rwa [hsort] at hsorted
          exact List.rel_of_sorted_cons hs2 q2 hq2t
  refine ⟨?_, hmin, ?_⟩
  · intro i j hi hj
    by_contra hij
    rw [not_lt] at hij
    rcases Nat.lt_or_ge (j : Nat) (i : Nat) with hlt | hge
    · have hrel := hsorted.rel_get_of_lt (a := j) (b := i) hlt
      rw [hi, hj] at hrel
      exact absurd hAB (not_lt.mpr hrel)
    · have hij2 : (i : Nat) = (j : Nat) := le_antisymm hge hij
      have : (Analyze.sort_by_mean groups).get i = (Analyze.sort_by_mean groups).get j := by
        congr 1
        exact Fin.ext hij2
      rw [hi, hj] at this
      rw [this] at hAB
      exact absurd hAB (lt_irrefl _)
  · intro hstrict
    have hAs : A ∈ Analyze.sort_by_mean groups := hperm.mem_iff.mpr hA
    have hne : Analyze.sort_by_mean groups ≠ [] := List.ne_nil_of_mem hAs
    obtain ⟨p, hp⟩ : ∃ p, Analyze.best_strategy groups = some p := by
      unfold Analyze.best_strategy
      cases hsort : Analyze.sort_by_mean groups with
      | nil => exact absurd hsort hne
      | cons q t => exact ⟨q, rfl⟩
    rcases hmin p hp with ⟨hpg, hpmin⟩
    by_cases hpA : p = A
    · rw [hpA] at hp
      exact hp
    · have h1 : Analyze.meanScore A.2 < Analyze.meanScore p.2 := hstrict p hpg hpA
      have h2 : Analyze.meanScore p.2 ≤ Analyze.meanScore A.2 := hpmin A hA
      exact absurd h1 (not_lt.mpr h2)

theorem aggregator_spec_w :
    (("a", [(2 : Int), 3]) ∈ [("b", [(10 : Int), 12]), ("a", [(2 : Int), 3])] ∧
      (∀ a ∈ [(2 : Int), 3], ∀ b ∈ [(10 : Int), 12], a < b)) ∧
    Analyze.best_strategy [("b", [(10 : Int), 12]), ("a", [(2 : Int), 3])] =
      some ("a", [(2 : Int), 3]) :=
  ⟨⟨by decide, by decide⟩,
    (aggregator_spec [("b", [10, 12]), ("a", [2, 3])] ("a", [2, 3]) ("b", [10, 12])
      (by decide) (by decide) (by decide) (by decide) (by decide)).2.2
      (by
        intro q hq hne
        rcases List.mem_cons.mp hq with rfl | hq2
        · unfold Analyze.meanScore
          norm_num
        · rcases List.mem_cons.mp hq2 with rfl | hq3
          · exact absurd rfl hne
          · exact absurd hq3 (List.not_mem_nil q))⟩
